import Mathlib

/-!
Shallow embedding of the `SmallVecMap` container of `pi_map`
(`src/smallvecmap.rs`), its functional model, and the debug-mode storage
strategy, with proofs of the specified properties.

Modelling conventions:
* Machine integers (`u32` keys, `usize` positions) are modelled as `Nat`;
  in every reachable state all stored quantities stay far below `2 ^ 32`,
  so the widening casts of the source are identities.
* The external `pi_null` sentinel capability (a reserved value of the slot
  type plus an `is_null` predicate, used to mark empty indirection slots)
  is modelled by `Option Nat`: `none` is the sentinel `u32::null()`,
  `some i` a dense position.
* A fallible operation returns `Except Unit α`; `Except.error ()` models a
  Rust panic.  Every unguarded indexing of the source is modelled by a
  `getElem?` match whose `none` arm is `Except.error ()`.
* The `SmallVec` inline capacity `N`, `reserve` calls, allocation capacity
  and the debug-only `id` field affect no observable behaviour of the
  operations and are not modelled; in `insert`, the source branch for
  `index > capacity` differs from the `index > len` branch only by a
  `reserve` call, so the two collapse to one branch here.
-/

/-- Release-strategy (`cfg(not(debug_assertions))`) `SmallVecMap`:
an indirection array `indexs` addressed by key, holding sentinel-or-position,
and a dense array `entries` of `(value, original_key)` pairs. -/
structure SmallVecMap (T : Type) where
  indexs : List (Option Nat)
  entries : List (T × Nat)
deriving DecidableEq

/-- A public mutating operation of the container. -/
inductive MapOp (T : Type) where
  | ins : Nat → T → MapOp T
  | del : Nat → MapOp T
  | clr : MapOp T
deriving DecidableEq

namespace SmallVecMap

variable {T : Type}

/-- The empty container (`new` / `with_capacity`). -/
def new : SmallVecMap T := ⟨[], []⟩

/-- Number of stored values (`len`): the length of the dense array. -/
def len (m : SmallVecMap T) : Nat := m.entries.length

/-- Empty both backing arrays (`clear`); capacity is not modelled. -/
def clear (_m : SmallVecMap T) : SmallVecMap T := ⟨[], []⟩

/-- Checked read (`get`): bounds-check the key against `indexs`, resolve the
sentinel, then index `entries` (an unguarded indexing: `error` on a dangling
slot). -/
def get (m : SmallVecMap T) (index : Nat) : Except Unit (Option T) :=
  if index ≥ m.indexs.length then Except.ok none
  else
    match m.indexs[index]? with
    | none => Except.error ()
    | some none => Except.ok none
    | some (some i) =>
      match m.entries[i]? with
      | none => Except.error ()
      | some e => Except.ok (some e.1)

/-- Checked mutable read (`get_mut`): the same access pattern as `get`; the
mutable borrow itself has no observable effect to model. -/
def get_mut (m : SmallVecMap T) (index : Nat) : Except Unit (Option T) :=
  if index ≥ m.indexs.length then Except.ok none
  else
    match m.indexs[index]? with
    | none => Except.error ()
    | some none => Except.ok none
    | some (some i) =>
      match m.entries[i]? with
      | none => Except.error ()
      | some e => Except.ok (some e.1)

/-- Presence test (`contains`): range check plus sentinel test. -/
def contains (m : SmallVecMap T) (index : Nat) : Except Unit Bool :=
  if index ≥ m.indexs.length then Except.ok false
  else
    match m.indexs[index]? with
    | none => Except.error ()
    | some s => Except.ok !s.isNone

/-- Checked insert (`insert`).  The source has four branches; the first
(`index > capacity`) and second (`index > len`) differ only by a `reserve`
call and collapse here.  The final branch reads and overwrites
`entries[i].0` in place, an unguarded indexing. -/
def insert (m : SmallVecMap T) (index : Nat) (val : T) :
    Except Unit (SmallVecMap T × Option T) :=
  let len := m.indexs.length
  if index > len then
    Except.ok
      (⟨(m.indexs ++ List.replicate (index - len + 1) none).set index
          (some m.entries.length),
        m.entries ++ [(val, index)]⟩, none)
  else if index = len then
    Except.ok
      (⟨m.indexs ++ [some m.entries.length], m.entries ++ [(val, index)]⟩,
       none)
  else
    match m.indexs[index]? with
    | none => Except.error ()
    | some none =>
      Except.ok
        (⟨m.indexs.set index (some m.entries.length),
          m.entries ++ [(val, index)]⟩, none)
    | some (some i) =>
      match m.entries[i]? with
      | none => Except.error ()
      | some e =>
        Except.ok (⟨m.indexs, m.entries.set i (val, e.2)⟩, some e.1)

/-- Checked remove (`remove`).  Out-of-range or sentinel keys return `none`
with no mutation.  A last-position entry is popped directly; otherwise the
last entry is swapped into the vacated position (`swap_remove`) and the
moved entry's indirection slot is repaired — an unguarded write into
`indexs`, hence `error` when its key is out of range. -/
def remove (m : SmallVecMap T) (index : Nat) :
    Except Unit (SmallVecMap T × Option T) :=
  if index ≥ m.indexs.length then Except.ok (m, none)
  else
    match m.indexs[index]? with
    | none => Except.error ()
    | some none => Except.ok (m, none)
    | some (some i) =>
      if i + 1 = m.entries.length then
        match m.entries.getLast? with
        | none => Except.error ()
        | some e =>
          Except.ok (⟨m.indexs.set index none, m.entries.dropLast⟩, some e.1)
      else
        match m.entries[i]? with
        | none => Except.error ()
        | some removed =>
          match m.entries.getLast? with
          | none => Except.error ()
          | some last =>
            let entries := (m.entries.set i last).dropLast
            let indexs := m.indexs.set index none
            match entries[i]? with
            | none => Except.error ()
            | some moved =>
              if moved.2 < indexs.length then
                Except.ok (⟨indexs.set moved.2 (some i), entries⟩,
                  some removed.1)
              else Except.error ()

/-- Construction from a pre-built list of `(value, key)` pairs
(`From<Vec<(T, u32)>>`, release strategy): the indirection is built as the
identity permutation over the list positions. -/
def fromVec (value : List (T × Nat)) : SmallVecMap T :=
  ⟨(List.range value.length).map some, value⟩

/-- The indirection slot stored for key `k`: `none` both for the sentinel
and for a key beyond the indirection length. -/
def slotOf (m : SmallVecMap T) (k : Nat) : Option Nat :=
  (m.indexs[k]?).getD none

/-- Abstraction function: the value currently held for key `k`. -/
def lookup (m : SmallVecMap T) (k : Nat) : Option T :=
  match slotOf m k with
  | none => none
  | some i => (m.entries[i]?).map Prod.fst

/-- Structural invariant of the release strategy: every dense entry's
original key points back at its position, and every non-sentinel slot
points at an in-range entry whose original key is that slot's key. -/
def WF (m : SmallVecMap T) : Prop :=
  (∀ p, (hp : p < m.entries.length) →
      slotOf m (m.entries.get ⟨p, hp⟩).2 = some p)
  ∧ ∀ k i, slotOf m k = some i →
      (m.entries[i]?).map Prod.snd = some k

/-- Decidable check of the second invariant conjunct at one slot. -/
def slotCheck (m : SmallVecMap T) : Option Nat → Nat → Prop
  | none, _ => True
  | some i, k => (m.entries[i]?).map Prod.snd = some k

instance (m : SmallVecMap T) (o : Option Nat) (k : Nat) :
    Decidable (slotCheck m o k) :=
  match o with
  | none => Decidable.isTrue trivial
  | some i =>
    inferInstanceAs (Decidable ((m.entries[i]?).map Prod.snd = some k))

instance (m : SmallVecMap T) : Decidable (WF m) :=
  decidable_of_iff
    ((∀ p, (hp : p < m.entries.length) →
        slotOf m (m.entries.get ⟨p, hp⟩).2 = some p)
      ∧ ∀ k, (hk : k < m.indexs.length) →
          slotCheck m (m.indexs.get ⟨k, hk⟩) k)
    (by
      constructor
      · rintro ⟨h1, h2⟩
        refine ⟨h1, fun k i hki => ?_⟩
        have hk : k < m.indexs.length := by
          by_contra hk
          have : m.indexs[k]? = none :=
            List.getElem?_eq_none (Nat.le_of_not_lt hk)
          simp [slotOf, this] at hki
        have hs : m.indexs.get ⟨k, hk⟩ = some i := by
          have : m.indexs[k]? = some (m.indexs.get ⟨k, hk⟩) :=
            List.getElem?_eq_getElem hk
          simpa [slotOf, this] using hki
        have := h2 k hk
        rw [hs] at this
        exact this
      · rintro ⟨h1, h2⟩
        refine ⟨h1, fun k hk => ?_⟩
        cases hs : m.indexs.get ⟨k, hk⟩ with
        | none => exact trivial
        | some i =>
          have hs2 : m.indexs[k] = some i := by
            simpa [List.get_eq_getElem] using hs
          have : slotOf m k = some i := by
            simp [slotOf, List.getElem?_eq_getElem hk, hs2]
          exact h2 k i this)

/-- Density of an input list: the pair at position `i` has key `i`. -/
def Dense (l : List (T × Nat)) : Prop :=
  ∀ p, (hp : p < l.length) → (l.get ⟨p, hp⟩).2 = p

instance (l : List (T × Nat)) : Decidable (Dense l) :=
  inferInstanceAs
    (Decidable (∀ p, (hp : p < l.length) → (l.get ⟨p, hp⟩).2 = p))

/-- Apply one public operation. -/
def applyOp (m : SmallVecMap T) : MapOp T → Except Unit (SmallVecMap T × Option T)
  | MapOp.ins k v => m.insert k v
  | MapOp.del k => m.remove k
  | MapOp.clr => Except.ok (m.clear, none)

/-- Run a sequence of operations, stopping at the first panic. -/
def run (m : SmallVecMap T) : List (MapOp T) → Except Unit (SmallVecMap T)
  | [] => Except.ok m
  | op :: ops =>
    match m.applyOp op with
    | Except.error e => Except.error e
    | Except.ok p => p.1.run ops

/-- Run a sequence of operations, also collecting each returned value. -/
def runOut (m : SmallVecMap T) :
    List (MapOp T) → Except Unit (SmallVecMap T × List (Option T))
  | [] => Except.ok (m, [])
  | op :: ops =>
    match m.applyOp op with
    | Except.error e => Except.error e
    | Except.ok p =>
      match p.1.runOut ops with
      | Except.error e => Except.error e
      | Except.ok q => Except.ok (q.1, p.2 :: q.2)

/-- States reachable through the public interface: constructed empty, or
from a dense pre-built list, or by a successful public operation. -/
inductive Reachable : SmallVecMap T → Prop where
  | base : Reachable new
  | ofVec : ∀ l : List (T × Nat), Dense l → Reachable (fromVec l)
  | step : ∀ (m : SmallVecMap T) (op : MapOp T) p,
      Reachable m → m.applyOp op = Except.ok p → Reachable p.1

end SmallVecMap

/-- Specification-level functional model of one operation on a partial map. -/
def modelApply {T : Type} (f : Nat → Option T) : MapOp T → Nat → Option T
  | MapOp.ins k v => Function.update f k (some v)
  | MapOp.del k => Function.update f k none
  | MapOp.clr => fun _ => none

/-- Specification-level functional model of an operation sequence. -/
def modelRun {T : Type} (f : Nat → Option T) : List (MapOp T) → Nat → Option T
  | [] => f
  | op :: ops => modelRun (modelApply f op) ops

/-- Modelled from the spec: the companion directly-indexed sparse container
`VecMap` (`crate::vecmap::VecMap`, whose source is not under `src/`): a
growable array of optional values addressed by absolute position, with O(1)
point operations and no compaction, maintaining its element count. -/
structure VecMap (A : Type) where
  slots : List (Option A)
  len : Nat
deriving DecidableEq

namespace VecMap

variable {A : Type}

/-- Modelled from the spec: the empty `VecMap`. -/
def new : VecMap A := ⟨[], 0⟩

/-- Modelled from the spec: read the optional value at a position. -/
def get (m : VecMap A) (k : Nat) : Option A := (m.slots[k]?).getD none

/-- Modelled from the spec: store a value at a position, growing the array
with empty slots when the position is beyond it; returns the old value. -/
def insert (m : VecMap A) (k : Nat) (v : A) : VecMap A × Option A :=
  let old := m.get k
  let slots :=
    if k < m.slots.length then m.slots
    else m.slots ++ List.replicate (k + 1 - m.slots.length) none
  (⟨slots.set k (some v), if old.isSome then m.len else m.len + 1⟩, old)

/-- Modelled from the spec: empty the slot at a position, returning the old
value; no compaction. -/
def remove (m : VecMap A) (k : Nat) : VecMap A × Option A :=
  let old := m.get k
  if old.isSome then (⟨m.slots.set k none, m.len - 1⟩, old) else (m, none)

/-- Modelled from the spec: occupancy test at a position. -/
def contains (m : VecMap A) (k : Nat) : Bool := (m.get k).isSome

/-- Modelled from the spec: empty the container. -/
def clear (_m : VecMap A) : VecMap A := ⟨[], 0⟩

end VecMap

/-- Debug-strategy (`cfg(debug_assertions)`) `SmallVecMap`: a `VecMap` of
`(value, original_key)` pairs addressed directly by key. -/
structure SmallVecMapDbg (T : Type) where
  entries : VecMap (T × Nat)

namespace SmallVecMapDbg

variable {T : Type}

/-- Debug-strategy `new`. -/
def new : SmallVecMapDbg T := ⟨VecMap.new⟩

/-- Debug-strategy `get`: delegate to the `VecMap`, project the value. -/
def get (m : SmallVecMapDbg T) (k : Nat) : Option T :=
  (m.entries.get k).map Prod.fst

/-- Debug-strategy `insert`: store the `(value, key)` pair. -/
def insert (m : SmallVecMapDbg T) (k : Nat) (v : T) :
    SmallVecMapDbg T × Option T :=
  let p := m.entries.insert k (v, k)
  (⟨p.1⟩, p.2.map Prod.fst)

/-- Debug-strategy `remove`. -/
def remove (m : SmallVecMapDbg T) (k : Nat) : SmallVecMapDbg T × Option T :=
  let p := m.entries.remove k
  (⟨p.1⟩, p.2.map Prod.fst)

/-- Debug-strategy `contains`. -/
def contains (m : SmallVecMapDbg T) (k : Nat) : Bool := m.entries.contains k

/-- Debug-strategy `len`. -/
def len (m : SmallVecMapDbg T) : Nat := m.entries.len

/-- Debug-strategy `clear`. -/
def clear (m : SmallVecMapDbg T) : SmallVecMapDbg T := ⟨m.entries.clear⟩

/-- Apply one public operation (debug strategy, total). -/
def applyOp (m : SmallVecMapDbg T) : MapOp T → SmallVecMapDbg T × Option T
  | MapOp.ins k v => m.insert k v
  | MapOp.del k => m.remove k
  | MapOp.clr => (m.clear, none)

/-- Run a sequence of operations (debug strategy), collecting each returned
value. -/
def runOut (m : SmallVecMapDbg T) :
    List (MapOp T) → SmallVecMapDbg T × List (Option T)
  | [] => (m, [])
  | op :: ops =>
    let p := m.applyOp op
    let q := p.1.runOut ops
    (q.1, p.2 :: q.2)

end SmallVecMapDbg

/-- Simulation relation between the two storage strategies: the release
state is well-formed, both report the same length, and both hold the same
value at every key. -/
def Sim {T : Type} (m : SmallVecMap T) (d : SmallVecMapDbg T) : Prop :=
  SmallVecMap.WF m ∧ m.entries.length = d.len ∧
    ∀ j, SmallVecMap.lookup m j = d.get j

/-! ### Basic facts about slots and reads -/

namespace SmallVecMap

variable {T : Type}

theorem slotOf_of_le {m : SmallVecMap T} {k : Nat}
    (h : m.indexs.length ≤ k) : slotOf m k = none := by
  simp [slotOf, List.getElem?_eq_none h]

theorem lt_of_slotOf_some {m : SmallVecMap T} {k i : Nat}
    (h : slotOf m k = some i) : k < m.indexs.length := by
  by_contra hk
  rw [slotOf_of_le (Nat.le_of_not_lt hk)] at h
  cases h

theorem indexs_getElem?_of_lt {m : SmallVecMap T} {k : Nat}
    (h : k < m.indexs.length) : m.indexs[k]? = some (slotOf m k) := by
  rw [List.getElem?_eq_getElem h]
  simp [slotOf, List.getElem?_eq_getElem h]

theorem get_mut_eq_get (m : SmallVecMap T) (k : Nat) :
    m.get_mut k = m.get k := rfl

theorem contains_eq (m : SmallVecMap T) (k : Nat) :
    m.contains k = Except.ok (slotOf m k).isSome := by
  unfold contains
  by_cases h : k ≥ m.indexs.length
  · rw [if_pos h, slotOf_of_le h]; rfl
  · rw [if_neg h, indexs_getElem?_of_lt (Nat.lt_of_not_le h)]
    cases slotOf m k <;> rfl

theorem wf_entry_slot {m : SmallVecMap T} (hw : WF m) {p : Nat}
    (hp : p < m.entries.length) :
    slotOf m (m.entries[p].2) = some p := by
  have := hw.1 p hp
  simpa [List.get_eq_getElem] using this

theorem wf_slot_entry {m : SmallVecMap T} (hw : WF m) {k i : Nat}
    (h : slotOf m k = some i) :
    ∃ e, m.entries[i]? = some e ∧ e.2 = k ∧ i < m.entries.length ∧
      lookup m k = some e.1 := by
  have h2 := hw.2 k i h
  cases he : m.entries[i]? with
  | none => rw [he] at h2; cases h2
  | some e =>
    rw [he] at h2
    have hek : e.2 = k := by simpa using h2
    refine ⟨e, rfl, hek, ?_, ?_⟩
    · by_contra hi
      rw [List.getElem?_eq_none (Nat.le_of_not_lt hi)] at he
      cases he
    · simp [lookup, h, he]

theorem wf_lookup_isSome {m : SmallVecMap T} (hw : WF m) (k : Nat) :
    (lookup m k).isSome = (slotOf m k).isSome := by
  cases h : slotOf m k with
  | none => simp [lookup, h]
  | some i =>
    obtain ⟨e, he, -, -, hl⟩ := wf_slot_entry hw h
    simp [hl]

theorem get_eq_lookup {m : SmallVecMap T} (hw : WF m) (k : Nat) :
    m.get k = Except.ok (lookup m k) := by
  unfold get
  by_cases h : k ≥ m.indexs.length
  · rw [if_pos h]
    simp [lookup, slotOf_of_le h]
  · rw [if_neg h, indexs_getElem?_of_lt (Nat.lt_of_not_le h)]
    cases hs : slotOf m k with
    | none => simp [lookup, hs]
    | some i =>
      obtain ⟨e, he, -, -, hl⟩ := wf_slot_entry hw hs
      simp [he, hl]

theorem wf_key_inj {m : SmallVecMap T} (hw : WF m) {p q : Nat}
    (hp : p < m.entries.length) (hq : q < m.entries.length)
    (h : m.entries[p].2 = m.entries[q].2) : p = q := by
  have h1 := wf_entry_slot hw hp
  have h2 := wf_entry_slot hw hq
  rw [h] at h1
  rw [h1] at h2
  exact Option.some_inj.mp h2

end SmallVecMap

/-! ### Branch equations for insert and remove -/

namespace SmallVecMap

variable {T : Type}

theorem insert_eq_of_gt {m : SmallVecMap T} {k : Nat} (v : T)
    (h : m.indexs.length < k) :
    m.insert k v = Except.ok
      (⟨(m.indexs ++ List.replicate (k - m.indexs.length + 1) none).set k
          (some m.entries.length), m.entries ++ [(v, k)]⟩, none) := by
  simp only [insert]
  rw [if_pos h]

theorem insert_eq_of_len {m : SmallVecMap T} {k : Nat} (v : T)
    (h : k = m.indexs.length) :
    m.insert k v = Except.ok
      (⟨m.indexs ++ [some m.entries.length], m.entries ++ [(v, k)]⟩,
       none) := by
  simp only [insert]
  rw [if_neg (by omega), if_pos h]

theorem insert_eq_of_lt_none {m : SmallVecMap T} {k : Nat} (v : T)
    (hk : k < m.indexs.length) (h : slotOf m k = none) :
    m.insert k v = Except.ok
      (⟨m.indexs.set k (some m.entries.length),
        m.entries ++ [(v, k)]⟩, none) := by
  simp only [insert]
  rw [if_neg (by omega), if_neg (by omega), indexs_getElem?_of_lt hk, h]

theorem insert_eq_of_some {m : SmallVecMap T} {k i : Nat} (v : T)
    (h : slotOf m k = some i) {e : T × Nat} (he : m.entries[i]? = some e) :
    m.insert k v =
      Except.ok (⟨m.indexs, m.entries.set i (v, e.2)⟩, some e.1) := by
  have hk := lt_of_slotOf_some h
  simp only [insert]
  rw [if_neg (by omega), if_neg (by omega), indexs_getElem?_of_lt hk, h]
  simp only []
  rw [he]

theorem remove_eq_of_none {m : SmallVecMap T} {k : Nat}
    (h : slotOf m k = none) : m.remove k = Except.ok (m, none) := by
  unfold remove
  by_cases hk : k ≥ m.indexs.length
  · rw [if_pos hk]
  · rw [if_neg hk, indexs_getElem?_of_lt (Nat.lt_of_not_le hk), h]

theorem remove_eq_of_last {m : SmallVecMap T} {k i : Nat}
    (h : slotOf m k = some i) (hl : i + 1 = m.entries.length) :
    ∃ e, m.entries.getLast? = some e ∧
      m.remove k = Except.ok
        (⟨m.indexs.set k none, m.entries.dropLast⟩, some e.1) := by
  have hk := lt_of_slotOf_some h
  have hne : m.entries ≠ [] := by
    intro hnil
    rw [hnil] at hl
    simp at hl
  obtain ⟨e, he⟩ :=
    Option.isSome_iff_exists.mp (List.getLast?_isSome.mpr hne)
  refine ⟨e, he, ?_⟩
  unfold remove
  rw [if_neg (Nat.not_le.mpr hk), indexs_getElem?_of_lt hk, h]
  simp only []
  rw [if_pos hl, he]

theorem remove_eq_of_swap {m : SmallVecMap T} {k i : Nat}
    (h : slotOf m k = some i) (hne : i + 1 ≠ m.entries.length)
    (hi : i < m.entries.length) :
    ∃ e l, m.entries[i]? = some e ∧ m.entries.getLast? = some l ∧
      (l.2 < m.indexs.length →
        m.remove k = Except.ok
          (⟨(m.indexs.set k none).set l.2 (some i),
            (m.entries.set i l).dropLast⟩, some e.1)) := by
  have hk := lt_of_slotOf_some h
  have hne' : m.entries ≠ [] := by
    intro hnil
    rw [hnil] at hi
    simp at hi
  obtain ⟨e, he⟩ := Option.isSome_iff_exists.mp
    (by rw [List.getElem?_eq_getElem hi]; rfl :
      (m.entries[i]?).isSome = true)
  obtain ⟨l, hl⟩ :=
    Option.isSome_iff_exists.mp (List.getLast?_isSome.mpr hne')
  refine ⟨e, l, he, hl, fun hrep => ?_⟩
  have hidrop : ((m.entries.set i l).dropLast)[i]? = some l := by
    rw [List.getElem?_dropLast]
    rw [List.length_set]
    rw [if_pos (by omega)]
    exact List.getElem?_set_self (by omega)
  unfold remove
  rw [if_neg (Nat.not_le.mpr hk), indexs_getElem?_of_lt hk, h]
  simp only []
  rw [if_neg hne, he, hl]
  simp only []
  rw [hidrop]
  simp only []
  rw [if_pos (by simpa [List.length_set] using hrep)]

end SmallVecMap

namespace SmallVecMap

variable {T : Type}

theorem insert_of_slot_none {m : SmallVecMap T} {k : Nat} (v : T)
    (h : slotOf m k = none) :
    ∃ m' : SmallVecMap T,
      m.insert k v = Except.ok (m', none)
      ∧ m'.entries = m.entries ++ [(v, k)]
      ∧ m'.indexs.length = max m.indexs.length (k + 1)
      ∧ ∀ j, slotOf m' j =
          if j = k then some m.entries.length else slotOf m j := by
  rcases Nat.lt_trichotomy k m.indexs.length with hk | hk | hk
  · refine ⟨_, insert_eq_of_lt_none v hk h, rfl, ?_, ?_⟩
    · simp only [List.length_set]
      omega
    · intro j
      by_cases hj : j = k
      · subst hj
        rw [if_pos rfl]
        simp [slotOf, List.getElem?_set_self hk]
      · rw [if_neg hj]
        simp [slotOf, List.getElem?_set_ne (fun hh => hj hh.symm)]
  · refine ⟨_, insert_eq_of_len v hk, rfl, ?_, ?_⟩
    · simp only [List.length_append, List.length_singleton]
      omega
    · intro j
      by_cases hj : j = k
      · subst hj
        rw [if_pos rfl]
        simp only [slotOf]
        rw [hk, List.getElem?_concat_length]
        rfl
      · rw [if_neg hj]
        by_cases hjl : j < m.indexs.length
        · simp [slotOf, List.getElem?_append_left hjl]
        · have h1 : m.indexs.length ≤ j := Nat.le_of_not_lt hjl
          have h2 : (m.indexs ++ [some m.entries.length]).length ≤ j := by
            simp only [List.length_append, List.length_singleton]
            omega
          simp [slotOf, List.getElem?_eq_none h1, List.getElem?_eq_none h2]
  · refine ⟨_, insert_eq_of_gt v hk, rfl, ?_, ?_⟩
    · simp only [List.length_set, List.length_append, List.length_replicate]
      omega
    · intro j
      by_cases hj : j = k
      · subst hj
        rw [if_pos rfl]
        have hlen : j <
            (m.indexs ++ List.replicate (j - m.indexs.length + 1) none).length := by
          simp only [List.length_append, List.length_replicate]
          omega
        simp [slotOf, List.getElem?_set_self hlen]
      · rw [if_neg hj]
        simp only [slotOf]
        rw [List.getElem?_set_ne (fun hh => hj hh.symm)]
        by_cases hjl : j < m.indexs.length
        · rw [List.getElem?_append_left hjl]
        · have h1 : m.indexs.length ≤ j := Nat.le_of_not_lt hjl
          rw [List.getElem?_append_right h1, List.getElem?_replicate,
            List.getElem?_eq_none h1]
          split <;> rfl

end SmallVecMap

namespace SmallVecMap

variable {T : Type}

theorem lt_of_getElem?_some {α : Type _} {l : List α} {i : Nat} {a : α}
    (h : l[i]? = some a) : i < l.length := by
  by_contra hi
  rw [List.getElem?_eq_none (Nat.le_of_not_lt hi)] at h
  cases h

theorem wf_def (m : SmallVecMap T) :
    WF m ↔ ((∀ p e, m.entries[p]? = some e → slotOf m e.2 = some p)
      ∧ ∀ k i, slotOf m k = some i →
          (m.entries[i]?).map Prod.snd = some k) := by
  constructor
  · rintro ⟨h1, h2⟩
    refine ⟨fun p e hpe => ?_, h2⟩
    have hp : p < m.entries.length := lt_of_getElem?_some hpe
    have hpa : m.entries[p] = e := by
      rw [List.getElem?_eq_getElem hp] at hpe
      exact Option.some_inj.mp hpe
    have h := h1 p hp
    rw [List.get_eq_getElem, hpa] at h
    exact h
  · rintro ⟨h1, h2⟩
    refine ⟨fun p hp => ?_, h2⟩
    have : m.entries[p]? = some (m.entries.get ⟨p, hp⟩) := by
      rw [List.getElem?_eq_getElem hp, List.get_eq_getElem]
    exact h1 p _ this

theorem lookup_of_slot_none {m : SmallVecMap T} {j : Nat}
    (h : slotOf m j = none) : lookup m j = none := by
  simp [lookup, h]

theorem lookup_of_slot_some {m : SmallVecMap T} {j i : Nat}
    (h : slotOf m j = some i) :
    lookup m j = (m.entries[i]?).map Prod.fst := by
  simp [lookup, h]

theorem insert_spec {m : SmallVecMap T} (hw : WF m) (k : Nat) (v : T) :
    ∃ m' : SmallVecMap T,
      m.insert k v = Except.ok (m', lookup m k)
      ∧ WF m'
      ∧ (∀ j, lookup m' j = if j = k then some v else lookup m j)
      ∧ m'.entries.length =
          (if (lookup m k).isSome then m.entries.length
           else m.entries.length + 1)
      ∧ m.indexs.length ≤ m'.indexs.length
      ∧ k < m'.indexs.length := by
  cases hs : slotOf m k with
  | none =>
    have hlk : lookup m k = none := lookup_of_slot_none hs
    obtain ⟨m', heq, hent, hlen, hslot⟩ := insert_of_slot_none v hs
    have happ : m'.entries[m.entries.length]? = some (v, k) := by
      rw [hent, List.getElem?_concat_length]
    refine ⟨m', by rw [hlk]; exact heq, ?_, ?_, ?_, ?_, ?_⟩
    · rw [wf_def]
      constructor
      · intro p e' hpe
        rcases Nat.lt_trichotomy p m.entries.length with hp | hp | hp
        · rw [hent, List.getElem?_append_left hp] at hpe
          have h1 := (wf_def m).mp hw |>.1 p e' hpe
          have hek : e'.2 ≠ k := by
            intro hh
            rw [hh, hs] at h1
            cases h1
          rw [hslot, if_neg hek]
          exact h1
        · rw [hent, hp, List.getElem?_concat_length] at hpe
          have he' : e' = (v, k) := (Option.some_inj.mp hpe).symm
          simp [he', hslot, hp]
        · rw [hent, List.getElem?_eq_none (by simp; omega)] at hpe
          cases hpe
      · intro j i' hj'
        rw [hslot] at hj'
        by_cases hjk : j = k
        · rw [if_pos hjk] at hj'
          have hi' : i' = m.entries.length := (Option.some_inj.mp hj').symm
          rw [hi', hent, List.getElem?_concat_length, hjk]
          rfl
        · rw [if_neg hjk] at hj'
          have h3 := hw.2 j i' hj'
          cases he2 : m.entries[i']? with
          | none => rw [he2] at h3; cases h3
          | some e2 =>
            have hi2 : i' < m.entries.length := lt_of_getElem?_some he2
            rw [hent, List.getElem?_append_left hi2, he2]
            rw [he2] at h3
            exact h3
    · intro j
      by_cases hj : j = k
      · subst hj
        rw [if_pos rfl, lookup_of_slot_some (by rw [hslot, if_pos rfl]),
          happ]
        rfl
      · rw [if_neg hj]
        cases hsj : slotOf m j with
        | none =>
          rw [lookup_of_slot_none (by rw [hslot, if_neg hj]; exact hsj),
            lookup_of_slot_none hsj]
        | some i' =>
          obtain ⟨e2, he2, -, hi2, -⟩ := wf_slot_entry hw hsj
          rw [lookup_of_slot_some (by rw [hslot, if_neg hj]; exact hsj),
            lookup_of_slot_some hsj, hent, List.getElem?_append_left hi2]
    · rw [hlk, hent]
      simp
    · rw [hlen]
      exact Nat.le_max_left _ _
    · rw [hlen]
      have := Nat.le_max_right m.indexs.length (k + 1)
      omega
  | some i =>
    obtain ⟨e, he, hek, hi, hlk⟩ := wf_slot_entry hw hs
    have heq := insert_eq_of_some v hs he
    have hslot' : ∀ j,
        slotOf (⟨m.indexs, m.entries.set i (v, e.2)⟩ : SmallVecMap T) j =
          slotOf m j := fun _ => rfl
    refine ⟨⟨m.indexs, m.entries.set i (v, e.2)⟩,
      by rw [hlk]; exact heq, ?_, ?_, ?_, Nat.le_refl _,
      lt_of_slotOf_some hs⟩
    · rw [wf_def]
      constructor
      · intro p e' hpe
        by_cases hpi : p = i
        · subst hpi
          rw [List.getElem?_set_self hi] at hpe
          have he' : e' = (v, e.2) := (Option.some_inj.mp hpe).symm
          rw [hslot', he']
          show slotOf m e.2 = some p
          rw [hek]
          exact hs
        · rw [List.getElem?_set_ne (fun hh => hpi hh.symm)] at hpe
          rw [hslot']
          exact (wf_def m).mp hw |>.1 p e' hpe
      · intro j i' hj'
        rw [hslot'] at hj'
        have h3 := hw.2 j i' hj'
        by_cases hii : i' = i
        · subst hii
          rw [he] at h3
          have hj : j = e.2 := by
            have := Option.some_inj.mp h3
            simp at this
            omega
          rw [List.getElem?_set_self hi, hj]
          rfl
        · rw [List.getElem?_set_ne (fun hh => hii hh.symm)]
          exact h3
    · intro j
      by_cases hj : j = k
      · subst hj
        rw [if_pos rfl,
          lookup_of_slot_some ((hslot' j).trans hs),
          List.getElem?_set_self hi]
        rfl
      · rw [if_neg hj]
        cases hsj : slotOf m j with
        | none =>
          rw [lookup_of_slot_none ((hslot' j).trans hsj),
            lookup_of_slot_none hsj]
        | some i' =>
          have hii : i' ≠ i := by
            intro hh
            have h3 := hw.2 j i' hsj
            rw [hh, he] at h3
            have : e.2 = j := by simpa using h3
            rw [hek] at this
            exact hj this.symm
          rw [lookup_of_slot_some ((hslot' j).trans hsj),
            lookup_of_slot_some hsj,
            List.getElem?_set_ne (fun hh => hii hh.symm)]
    · rw [hlk]
      simp

end SmallVecMap

namespace SmallVecMap

variable {T : Type}

theorem remove_spec {m : SmallVecMap T} (hw : WF m) (k : Nat) :
    ∃ m' : SmallVecMap T,
      m.remove k = Except.ok (m', lookup m k)
      ∧ WF m'
      ∧ (∀ j, lookup m' j = if j = k then none else lookup m j)
      ∧ m'.entries.length =
          (if (lookup m k).isSome then m.entries.length - 1
           else m.entries.length)
      ∧ m'.indexs.length = m.indexs.length := by
  cases hs : slotOf m k with
  | none =>
    have hlk : lookup m k = none := lookup_of_slot_none hs
    refine ⟨m, by rw [hlk]; exact remove_eq_of_none hs, hw, ?_,
      by simp [hlk], rfl⟩
    intro j
    by_cases hj : j = k
    · subst hj
      rw [if_pos rfl, hlk]
    · rw [if_neg hj]
  | some i =>
    obtain ⟨e, he, hek, hi, hlk⟩ := wf_slot_entry hw hs
    have hkl := lt_of_slotOf_some hs
    by_cases hlast : i + 1 = m.entries.length
    · -- the removed entry is the last dense entry: direct pop
      obtain ⟨e', hgl, heq⟩ := remove_eq_of_last hs hlast
      have he' : e' = e := by
        rw [List.getLast?_eq_getElem?] at hgl
        have hL : m.entries.length - 1 = i := by omega
        rw [hL, he] at hgl
        exact (Option.some_inj.mp hgl).symm
      rw [he'] at heq
      have hslot' : ∀ j,
          slotOf (⟨m.indexs.set k none, m.entries.dropLast⟩ :
              SmallVecMap T) j =
            if j = k then none else slotOf m j := by
        intro j
        by_cases hj : j = k
        · subst hj
          rw [if_pos rfl]
          simp [slotOf, List.getElem?_set_self hkl]
        · rw [if_neg hj]
          simp [slotOf, List.getElem?_set_ne (fun hh => hj hh.symm)]
      refine ⟨⟨m.indexs.set k none, m.entries.dropLast⟩,
        by rw [hlk]; exact heq, ?_, ?_, ?_, by simp⟩
      · rw [wf_def]
        constructor
        · intro p e2 hpe
          rw [List.getElem?_dropLast] at hpe
          by_cases hp : p < m.entries.length - 1
          · rw [if_pos hp] at hpe
            have h1 := (wf_def m).mp hw |>.1 p e2 hpe
            have hne2 : e2.2 ≠ k := by
              intro hh
              rw [hh, hs] at h1
              have : i = p := Option.some_inj.mp h1
              omega
            rw [hslot', if_neg hne2]
            exact h1
          · rw [if_neg hp] at hpe
            cases hpe
        · intro j i' hj'
          rw [hslot'] at hj'
          by_cases hj : j = k
          · rw [if_pos hj] at hj'
            cases hj'
          · rw [if_neg hj] at hj'
            have h3 := hw.2 j i' hj'
            cases he2 : m.entries[i']? with
            | none => rw [he2] at h3; cases h3
            | some e2 =>
              have hi2 : i' < m.entries.length := lt_of_getElem?_some he2
              have hii : i' ≠ i := by
                intro hh
                rw [hh, he] at h3
                have : e.2 = j := by simpa using h3
                rw [hek] at this
                exact hj this.symm
              rw [List.getElem?_dropLast, if_pos (by omega), he2]
              rw [he2] at h3
              exact h3
      · intro j
        by_cases hj : j = k
        · subst hj
          rw [if_pos rfl]
          exact lookup_of_slot_none (by rw [hslot', if_pos rfl])
        · rw [if_neg hj]
          cases hsj : slotOf m j with
          | none =>
            rw [lookup_of_slot_none
                (by rw [hslot', if_neg hj]; exact hsj),
              lookup_of_slot_none hsj]
          | some i' =>
            obtain ⟨e2, he2, he2k, hi2, -⟩ := wf_slot_entry hw hsj
            have hii : i' ≠ i := by
              intro hh
              rw [hh, he] at he2
              have he2e : e2 = e := (Option.some_inj.mp he2).symm
              rw [he2e, hek] at he2k
              exact hj he2k.symm
            rw [lookup_of_slot_some
                (by rw [hslot', if_neg hj]; exact hsj),
              lookup_of_slot_some hsj,
              List.getElem?_dropLast, if_pos (by omega)]
      · rw [hlk]
        simp
    · -- swap-remove: the last entry moves into position i
      obtain ⟨e2, l, he2, hgl, himp⟩ := remove_eq_of_swap hs hlast hi
      have he2e : e2 = e := by
        rw [he] at he2
        exact (Option.some_inj.mp he2).symm
      have hlL : m.entries[m.entries.length - 1]? = some l := by
        rw [← List.getLast?_eq_getElem?]
        exact hgl
      have hiL : i < m.entries.length - 1 := by omega
      have hκ : slotOf m l.2 = some (m.entries.length - 1) :=
        (wf_def m).mp hw |>.1 (m.entries.length - 1) l hlL
      have hκlt : l.2 < m.indexs.length := lt_of_slotOf_some hκ
      have hκk : l.2 ≠ k := by
        intro hh
        rw [hh, hs] at hκ
        have : m.entries.length - 1 = i := Option.some_inj.mp hκ.symm
        omega
      have heq := himp hκlt
      rw [he2e] at heq
      have hslot' : ∀ j,
          slotOf (⟨(m.indexs.set k none).set l.2 (some i),
              (m.entries.set i l).dropLast⟩ : SmallVecMap T) j =
            if j = l.2 then some i
            else if j = k then none else slotOf m j := by
        intro j
        by_cases hjκ : j = l.2
        · subst hjκ
          rw [if_pos rfl]
          simp only [slotOf]
          rw [List.getElem?_set_self (by rw [List.length_set]; exact hκlt)]
          rfl
        · rw [if_neg hjκ]
          simp only [slotOf]
          rw [List.getElem?_set_ne (fun hh => hjκ hh.symm)]
          by_cases hj : j = k
          · subst hj
            rw [if_pos rfl, List.getElem?_set_self hkl]
            rfl
          · rw [if_neg hj, List.getElem?_set_ne (fun hh => hj hh.symm)]
      have hent' : ∀ p, ((m.entries.set i l).dropLast)[p]? =
          if p < m.entries.length - 1 then
            (if p = i then some l else m.entries[p]?) else none := by
        intro p
        rw [List.getElem?_dropLast, List.length_set]
        by_cases hp : p < m.entries.length - 1
        · rw [if_pos hp, if_pos hp]
          by_cases hpi : p = i
          · subst hpi
            rw [if_pos rfl, List.getElem?_set_self hi]
          · rw [if_neg hpi, List.getElem?_set_ne (fun hh => hpi hh.symm)]
        · rw [if_neg hp, if_neg hp]
      refine ⟨⟨(m.indexs.set k none).set l.2 (some i),
          (m.entries.set i l).dropLast⟩,
        by rw [hlk]; exact heq, ?_, ?_, ?_, by simp⟩
      · rw [wf_def]
        constructor
        · intro p e3 hpe
          rw [hent'] at hpe
          by_cases hp : p < m.entries.length - 1
          · rw [if_pos hp] at hpe
            by_cases hpi : p = i
            · rw [if_pos hpi] at hpe
              have he3 : e3 = l := (Option.some_inj.mp hpe).symm
              rw [he3, hslot', if_pos rfl, hpi]
            · rw [if_neg hpi] at hpe
              have h1 := (wf_def m).mp hw |>.1 p e3 hpe
              have hp2 : p < m.entries.length := by omega
              have hgp : m.entries[p] = e3 := by
                rw [List.getElem?_eq_getElem hp2] at hpe
                exact Option.some_inj.mp hpe
              have hne3κ : e3.2 ≠ l.2 := by
                intro hh
                rw [hh, hκ] at h1
                have : m.entries.length - 1 = p := Option.some_inj.mp h1
                omega
              have hne3k : e3.2 ≠ k := by
                intro hh
                rw [hh, hs] at h1
                have : i = p := Option.some_inj.mp h1
                exact hpi this.symm
              rw [hslot', if_neg hne3κ, if_neg hne3k]
              exact h1
          · rw [if_neg hp] at hpe
            cases hpe
        · intro j i3 hj3
          rw [hslot'] at hj3
          by_cases hjκ : j = l.2
          · rw [if_pos hjκ] at hj3
            have hi3 : i3 = i := (Option.some_inj.mp hj3).symm
            rw [hi3, hent', if_pos hiL, if_pos rfl, hjκ]
            rfl
          · rw [if_neg hjκ] at hj3
            by_cases hj : j = k
            · rw [if_pos hj] at hj3
              cases hj3
            · rw [if_neg hj] at hj3
              have h3 := hw.2 j i3 hj3
              cases he3 : m.entries[i3]? with
              | none => rw [he3] at h3; cases h3
              | some e3 =>
                rw [he3] at h3
                have hje3 : e3.2 = j := by simpa using h3
                have hi32 : i3 < m.entries.length := lt_of_getElem?_some he3
                have hi3i : i3 ≠ i := by
                  intro hh
                  rw [hh, he] at he3
                  have he3e : e3 = e := (Option.some_inj.mp he3).symm
                  rw [he3e, hek] at hje3
                  exact hj hje3.symm
                have hi3L : i3 ≠ m.entries.length - 1 := by
                  intro hh
                  rw [hh, hlL] at he3
                  have he3l : e3 = l := (Option.some_inj.mp he3).symm
                  rw [he3l] at hje3
                  exact hjκ hje3.symm
                rw [hent', if_pos (by omega), if_neg hi3i, he3]
                exact h3
      · intro j
        by_cases hj : j = k
        · subst hj
          rw [if_pos rfl]
          exact lookup_of_slot_none
            (by rw [hslot', if_neg (fun hh => hκk hh.symm), if_pos rfl])
        · rw [if_neg hj]
          by_cases hjκ : j = l.2
          · subst hjκ
            rw [lookup_of_slot_some (by rw [hslot', if_pos rfl]),
              lookup_of_slot_some hκ, hent', if_pos hiL, if_pos rfl, hlL]
          · cases hsj : slotOf m j with
            | none =>
              rw [lookup_of_slot_none
                  (by rw [hslot', if_neg hjκ, if_neg hj]; exact hsj),
                lookup_of_slot_none hsj]
            | some i3 =>
              obtain ⟨e3, he3, he3j, hi32, -⟩ := wf_slot_entry hw hsj
              have hi3i : i3 ≠ i := by
                intro hh
                rw [hh, he] at he3
                have he3e : e3 = e := (Option.some_inj.mp he3).symm
                rw [he3e, hek] at he3j
                exact hj he3j.symm
              have hi3L : i3 ≠ m.entries.length - 1 := by
                intro hh
                rw [hh, hlL] at he3
                have he3l : e3 = l := (Option.some_inj.mp he3).symm
                rw [he3l] at he3j
                exact hjκ he3j.symm
              rw [lookup_of_slot_some
                  (by rw [hslot', if_neg hjκ, if_neg hj]; exact hsj),
                lookup_of_slot_some hsj, hent', if_pos (by omega),
                if_neg hi3i]
      · rw [hlk]
        simp

end SmallVecMap

namespace SmallVecMap

variable {T : Type}

theorem clear_eq_new (m : SmallVecMap T) : m.clear = new := rfl

theorem wf_new : WF (new : SmallVecMap T) := by
  constructor
  · intro p hp
    simp [new] at hp
  · intro k i h
    simp [new, slotOf] at h

theorem wf_clear (m : SmallVecMap T) : WF m.clear := by
  rw [clear_eq_new]
  exact wf_new

theorem slotOf_fromVec (l : List (T × Nat)) (j : Nat) :
    slotOf (fromVec l) j = if j < l.length then some j else none := by
  simp only [slotOf, fromVec]
  by_cases hj : j < l.length
  · rw [if_pos hj]
    rw [List.getElem?_map, List.getElem?_range hj]
    rfl
  · rw [if_neg hj]
    rw [List.getElem?_eq_none (by simpa using Nat.le_of_not_lt hj)]
    rfl

theorem wf_fromVec {l : List (T × Nat)} (hd : Dense l) : WF (fromVec l) := by
  have hent : (fromVec l).entries = l := rfl
  rw [wf_def]
  constructor
  · intro p e hpe
    rw [hent] at hpe
    have hp : p < l.length := lt_of_getElem?_some hpe
    have hpa : l[p] = e := by
      rw [List.getElem?_eq_getElem hp] at hpe
      exact Option.some_inj.mp hpe
    have hk : l[p].2 = p := by simpa using hd p hp
    rw [slotOf_fromVec, ← hpa, hk, if_pos hp]
  · intro k i h
    rw [slotOf_fromVec] at h
    by_cases hk : k < l.length
    · rw [if_pos hk] at h
      have hik : k = i := Option.some_inj.mp h
      subst hik
      have hkk : l[k].2 = k := by simpa using hd k hk
      rw [hent, List.getElem?_eq_getElem hk]
      simp [hkk]
    · rw [if_neg hk] at h
      cases h

theorem wf_applyOp {m : SmallVecMap T} {op : MapOp T}
    {p : SmallVecMap T × Option T} (hw : WF m)
    (h : m.applyOp op = Except.ok p) : WF p.1 := by
  cases op with
  | ins k v =>
    obtain ⟨m', heq, hw', -, -, -, -⟩ := insert_spec hw k v
    rw [applyOp, heq] at h
    injection h with h1
    rw [← h1]
    exact hw'
  | del k =>
    obtain ⟨m', heq, hw', -, -, -⟩ := remove_spec hw k
    rw [applyOp, heq] at h
    injection h with h1
    rw [← h1]
    exact hw'
  | clr =>
    rw [applyOp] at h
    injection h with h1
    rw [← h1]
    exact wf_clear m

theorem wf_reachable {m : SmallVecMap T} (h : Reachable m) : WF m := by
  induction h with
  | base => exact wf_new
  | ofVec l hd => exact wf_fromVec hd
  | step m op p _ happ ih => exact wf_applyOp ih happ

theorem run_model {f : Nat → Option T} :
    ∀ (ops : List (MapOp T)) {m m' : SmallVecMap T}, WF m →
      (∀ j, lookup m j = f j) → m.run ops = Except.ok m' →
      WF m' ∧ ∀ j, lookup m' j = modelRun f ops j := by
  intro ops
  induction ops generalizing f with
  | nil =>
    intro m m' hw hf h
    rw [run] at h
    have hm : m = m' := Option.some_inj.mp (congrArg Except.toOption h)
    subst hm
    exact ⟨hw, by simpa [modelRun] using hf⟩
  | cons op ops ih =>
    intro m m' hw hf h
    cases op with
    | ins k v =>
      obtain ⟨m1, heq, hw1, hlook, -, -, -⟩ := insert_spec hw k v
      rw [run, applyOp, heq] at h
      have hf1 : ∀ j, lookup m1 j = modelApply f (MapOp.ins k v) j := by
        intro j
        rw [hlook j, modelApply, Function.update_apply, hf j]
      exact ih hw1 hf1 h
    | del k =>
      obtain ⟨m1, heq, hw1, hlook, -, -⟩ := remove_spec hw k
      rw [run, applyOp, heq] at h
      have hf1 : ∀ j, lookup m1 j = modelApply f (MapOp.del k) j := by
        intro j
        rw [hlook j, modelApply, Function.update_apply, hf j]
      exact ih hw1 hf1 h
    | clr =>
      rw [run, applyOp] at h
      have hf1 : ∀ j, lookup m.clear j = modelApply f MapOp.clr j := by
        intro j
        rw [clear_eq_new]
        exact lookup_of_slot_none (by simp [slotOf, new])
      exact ih (wf_clear m) hf1 h

theorem lookup_new (j : Nat) : lookup (new : SmallVecMap T) j = none :=
  lookup_of_slot_none (by simp [slotOf, new])

end SmallVecMap

namespace SmallVecMap

variable {T : Type}

theorem remove_indexs_length {m : SmallVecMap T} {k : Nat}
    {p : SmallVecMap T × Option T} (h : m.remove k = Except.ok p) :
    p.1.indexs.length = m.indexs.length := by
  simp only [remove] at h
  repeat' split at h
  all_goals
    first
      | (exact Except.noConfusion h)
      | (injection h with h1
         subst h1
         simp [List.length_set])

theorem insert_indexs_length {m : SmallVecMap T} {k : Nat} {v : T}
    {p : SmallVecMap T × Option T} (h : m.insert k v = Except.ok p) :
    m.indexs.length ≤ p.1.indexs.length ∧ k < p.1.indexs.length := by
  simp only [insert] at h
  repeat' split at h
  all_goals
    first
      | (exact Except.noConfusion h)
      | (injection h with h1
         subst h1
         simp only [List.length_set, List.length_append,
           List.length_replicate, List.length_singleton]
         omega)

theorem applyOp_indexs_mono {m : SmallVecMap T} {op : MapOp T}
    {p : SmallVecMap T × Option T} (h : m.applyOp op = Except.ok p) :
    op = MapOp.clr ∨ m.indexs.length ≤ p.1.indexs.length := by
  cases op with
  | ins k v => exact Or.inr (insert_indexs_length h).1
  | del k => exact Or.inr (Nat.le_of_eq (remove_indexs_length h).symm)
  | clr => exact Or.inl rfl

theorem run_indexs_mono :
    ∀ {ops : List (MapOp T)}, MapOp.clr ∉ ops →
      ∀ {m m' : SmallVecMap T}, m.run ops = Except.ok m' →
        m.indexs.length ≤ m'.indexs.length := by
  intro ops
  induction ops with
  | nil =>
    intro _ m m' h
    rw [run] at h
    injection h with h1
    rw [h1]
  | cons op ops ih =>
    intro hclr m m' h
    have hop : op ≠ MapOp.clr := fun hh => hclr (hh ▸ List.mem_cons_self op ops)
    have htl : MapOp.clr ∉ ops := fun hh => hclr (List.mem_cons_of_mem op hh)
    rw [run] at h
    cases happ : m.applyOp op with
    | error e => rw [happ] at h; cases h
    | ok p =>
      rw [happ] at h
      have h1 : m.indexs.length ≤ p.1.indexs.length := by
        rcases applyOp_indexs_mono happ with hc | hle
        · exact absurd hc hop
        · exact hle
      exact Nat.le_trans h1 (ih htl h)

theorem run_ins_key_lt :
    ∀ {ops : List (MapOp T)}, MapOp.clr ∉ ops →
      ∀ {m m' : SmallVecMap T}, m.run ops = Except.ok m' →
        ∀ k v, MapOp.ins k v ∈ ops → k < m'.indexs.length := by
  intro ops
  induction ops with
  | nil =>
    intro _ m m' _ k v hmem
    cases hmem
  | cons op ops ih =>
    intro hclr m m' h k v hmem
    have htl : MapOp.clr ∉ ops := fun hh => hclr (List.mem_cons_of_mem op hh)
    rw [run] at h
    cases happ : m.applyOp op with
    | error e => rw [happ] at h; cases h
    | ok p =>
      rw [happ] at h
      rcases List.mem_cons.mp hmem with hop | hop
      · have hk : k < p.1.indexs.length := by
          rw [← hop] at happ
          exact (insert_indexs_length happ).2
        exact Nat.lt_of_lt_of_le hk (run_indexs_mono htl h)
      · exact ih htl h k v hop

end SmallVecMap

namespace VecMap

variable {A : Type}

theorem vm_get_insert (m : VecMap A) (k j : Nat) (v : A) :
    ((m.insert k v).1).get j = if j = k then some v else m.get j := by
  simp only [insert, get]
  by_cases hk : k < m.slots.length
  · rw [if_pos hk]
    by_cases hj : j = k
    · subst hj
      rw [if_pos rfl, List.getElem?_set_self hk]
      rfl
    · rw [if_neg hj, List.getElem?_set_ne (fun hh => hj hh.symm)]
  · rw [if_neg hk]
    have hbase : k <
        (m.slots ++ List.replicate (k + 1 - m.slots.length) none).length := by
      simp only [List.length_append, List.length_replicate]
      omega
    by_cases hj : j = k
    · subst hj
      rw [if_pos rfl, List.getElem?_set_self hbase]
      rfl
    · rw [if_neg hj, List.getElem?_set_ne (fun hh => hj hh.symm)]
      by_cases hjl : j < m.slots.length
      · rw [List.getElem?_append_left hjl]
      · rw [List.getElem?_append_right (Nat.le_of_not_lt hjl),
          List.getElem?_replicate,
          List.getElem?_eq_none (Nat.le_of_not_lt hjl)]
        split <;> rfl

theorem vm_insert_ret (m : VecMap A) (k : Nat) (v : A) :
    (m.insert k v).2 = m.get k := rfl

theorem vm_insert_len (m : VecMap A) (k : Nat) (v : A) :
    (m.insert k v).1.len =
      if (m.get k).isSome then m.len else m.len + 1 := rfl

theorem get_of_not_isSome {m : VecMap A} {k : Nat}
    (h : ¬(m.get k).isSome) : m.get k = none := by
  cases hg : m.get k
  · rfl
  · rw [hg] at h
    simp at h

theorem vm_get_remove (m : VecMap A) (k j : Nat) :
    ((m.remove k).1).get j = if j = k then none else m.get j := by
  simp only [remove]
  by_cases ho : (m.get k).isSome
  · rw [if_pos ho]
    have hk : k < m.slots.length := by
      by_contra hh
      rw [show m.get k = none from by
        simp [get, List.getElem?_eq_none (Nat.le_of_not_lt hh)]] at ho
      simp at ho
    by_cases hj : j = k
    · subst hj
      simp only [get]
      simp [List.getElem?_set_self hk]
    · rw [if_neg hj]
      simp only [get]
      rw [List.getElem?_set_ne (fun hh => hj hh.symm)]
  · rw [if_neg ho]
    by_cases hj : j = k
    · subst hj
      rw [if_pos rfl]
      exact get_of_not_isSome ho
    · rw [if_neg hj]

theorem vm_remove_ret (m : VecMap A) (k : Nat) :
    (m.remove k).2 = m.get k := by
  simp only [remove]
  by_cases ho : (m.get k).isSome
  · rw [if_pos ho]
  · rw [if_neg ho]
    exact (get_of_not_isSome ho).symm

theorem vm_remove_len (m : VecMap A) (k : Nat) :
    (m.remove k).1.len =
      if (m.get k).isSome then m.len - 1 else m.len := by
  simp only [remove]
  by_cases ho : (m.get k).isSome
  · rw [if_pos ho, if_pos ho]
  · rw [if_neg ho, if_neg ho]

end VecMap

namespace SmallVecMapDbg

variable {T : Type}

theorem dbg_get_insert (m : SmallVecMapDbg T) (k j : Nat) (v : T) :
    ((m.insert k v).1).get j = if j = k then some v else m.get j := by
  simp only [insert, get]
  rw [VecMap.vm_get_insert]
  by_cases hj : j = k
  · rw [if_pos hj, if_pos hj]
    rfl
  · rw [if_neg hj, if_neg hj]

theorem dbg_insert_ret (m : SmallVecMapDbg T) (k : Nat) (v : T) :
    (m.insert k v).2 = m.get k := rfl

theorem dbg_insert_len (m : SmallVecMapDbg T) (k : Nat) (v : T) :
    (m.insert k v).1.len =
      if (m.get k).isSome then m.len else m.len + 1 := by
  simp only [insert, len, get]
  rw [VecMap.vm_insert_len, Option.isSome_map']

theorem dbg_get_remove (m : SmallVecMapDbg T) (k j : Nat) :
    ((m.remove k).1).get j = if j = k then none else m.get j := by
  simp only [remove, get]
  rw [VecMap.vm_get_remove]
  by_cases hj : j = k
  · rw [if_pos hj, if_pos hj]
    rfl
  · rw [if_neg hj, if_neg hj]

theorem dbg_remove_ret (m : SmallVecMapDbg T) (k : Nat) :
    (m.remove k).2 = m.get k := by
  simp only [remove, get]
  rw [VecMap.vm_remove_ret]

theorem dbg_remove_len (m : SmallVecMapDbg T) (k : Nat) :
    (m.remove k).1.len =
      if (m.get k).isSome then m.len - 1 else m.len := by
  simp only [remove, len, get]
  rw [VecMap.vm_remove_len, Option.isSome_map']

theorem dbg_contains_eq (m : SmallVecMapDbg T) (k : Nat) :
    m.contains k = (m.get k).isSome := by
  simp [contains, get, VecMap.contains, Option.isSome_map']

theorem applyOp_ins (m : SmallVecMapDbg T) (k : Nat) (v : T) :
    m.applyOp (MapOp.ins k v) = m.insert k v := rfl

theorem applyOp_del (m : SmallVecMapDbg T) (k : Nat) :
    m.applyOp (MapOp.del k) = m.remove k := rfl

theorem applyOp_clr (m : SmallVecMapDbg T) :
    m.applyOp MapOp.clr = (m.clear, none) := rfl

theorem runOut_cons (d : SmallVecMapDbg T) (op : MapOp T)
    (ops : List (MapOp T)) :
    d.runOut (op :: ops) =
      (((d.applyOp op).1.runOut ops).1,
       (d.applyOp op).2 :: ((d.applyOp op).1.runOut ops).2) := rfl

theorem get_clear (m : SmallVecMapDbg T) (j : Nat) :
    m.clear.get j = none := rfl

theorem len_clear (m : SmallVecMapDbg T) : m.clear.len = 0 := rfl

end SmallVecMapDbg

section Simulation

variable {T : Type}

theorem sim_new : Sim (SmallVecMap.new : SmallVecMap T) SmallVecMapDbg.new := by
  refine ⟨SmallVecMap.wf_new, rfl, fun j => ?_⟩
  rw [SmallVecMap.lookup_new]
  rfl

theorem sim_applyOp {m : SmallVecMap T} {d : SmallVecMapDbg T}
    (hs : Sim m d) (op : MapOp T) :
    ∃ p, m.applyOp op = Except.ok p ∧ p.2 = (d.applyOp op).2
      ∧ Sim p.1 (d.applyOp op).1 := by
  obtain ⟨hw, hlen, hget⟩ := hs
  cases op with
  | ins k v =>
    obtain ⟨m', heq, hw', hlook, hlen', -, -⟩ := SmallVecMap.insert_spec hw k v
    refine ⟨(m', SmallVecMap.lookup m k), heq, ?_, hw', ?_, ?_⟩
    · show SmallVecMap.lookup m k = (d.applyOp (MapOp.ins k v)).2
      rw [SmallVecMapDbg.applyOp_ins, SmallVecMapDbg.dbg_insert_ret]
      exact hget k
    · show m'.entries.length = (d.applyOp (MapOp.ins k v)).1.len
      rw [SmallVecMapDbg.applyOp_ins, SmallVecMapDbg.dbg_insert_len, hlen',
        hget k, hlen]
    · intro j
      show SmallVecMap.lookup m' j = (d.applyOp (MapOp.ins k v)).1.get j
      rw [SmallVecMapDbg.applyOp_ins, SmallVecMapDbg.dbg_get_insert, hlook j]
      by_cases hj : j = k
      · rw [if_pos hj, if_pos hj]
      · rw [if_neg hj, if_neg hj]
        exact hget j
  | del k =>
    obtain ⟨m', heq, hw', hlook, hlen', -⟩ := SmallVecMap.remove_spec hw k
    refine ⟨(m', SmallVecMap.lookup m k), heq, ?_, hw', ?_, ?_⟩
    · show SmallVecMap.lookup m k = (d.applyOp (MapOp.del k)).2
      rw [SmallVecMapDbg.applyOp_del, SmallVecMapDbg.dbg_remove_ret]
      exact hget k
    · show m'.entries.length = (d.applyOp (MapOp.del k)).1.len
      rw [SmallVecMapDbg.applyOp_del, SmallVecMapDbg.dbg_remove_len, hlen',
        hget k, hlen]
    · intro j
      show SmallVecMap.lookup m' j = (d.applyOp (MapOp.del k)).1.get j
      rw [SmallVecMapDbg.applyOp_del, SmallVecMapDbg.dbg_get_remove, hlook j]
      by_cases hj : j = k
      · rw [if_pos hj, if_pos hj]
      · rw [if_neg hj, if_neg hj]
        exact hget j
  | clr =>
    refine ⟨(m.clear, none), rfl, rfl, SmallVecMap.wf_clear m, rfl, ?_⟩
    intro j
    rw [SmallVecMap.clear_eq_new, SmallVecMap.lookup_new]
    rfl

theorem sim_runOut :
    ∀ (ops : List (MapOp T)) (m : SmallVecMap T) (d : SmallVecMapDbg T),
      Sim m d →
      ∃ q, m.runOut ops = Except.ok q ∧ q.2 = (d.runOut ops).2
        ∧ Sim q.1 (d.runOut ops).1 := by
  intro ops
  induction ops with
  | nil =>
    intro m d hs
    exact ⟨(m, []), rfl, rfl, hs⟩
  | cons op ops ih =>
    intro m d hs
    obtain ⟨p, happ, hret, hsim⟩ := sim_applyOp hs op
    obtain ⟨q, hrun, hq2, hqsim⟩ := ih p.1 (d.applyOp op).1 hsim
    refine ⟨(q.1, p.2 :: q.2), ?_, ?_, ?_⟩
    · rw [SmallVecMap.runOut, happ]
      simp only []
      rw [hrun]
    · show p.2 :: q.2 = (d.runOut (op :: ops)).2
      rw [SmallVecMapDbg.runOut_cons]
      rw [hret, hq2]
    · show Sim q.1 (d.runOut (op :: ops)).1
      rw [SmallVecMapDbg.runOut_cons]
      exact hqsim

end Simulation

namespace SmallVecMap

variable {T : Type}

theorem get_of_slot_entry {m : SmallVecMap T} {k i : Nat} {e : T × Nat}
    (hs : slotOf m k = some i) (he : m.entries[i]? = some e) :
    m.get k = Except.ok (some e.1) := by
  have hk := lt_of_slotOf_some hs
  unfold get
  rw [if_neg (Nat.not_le.mpr hk), indexs_getElem?_of_lt hk, hs]
  simp only []
  rw [he]

end SmallVecMap

/-! ### The claims -/

/-- C1: for every sequence of insert and remove operations starting from the
empty container (clear included), after each operation every live key reads
back the most recently inserted value, and `contains` is true exactly for
the live keys — the container tracks the functional map model. -/
theorem claim_C1 {T : Type} (ops : List (MapOp T)) (m : SmallVecMap T)
    (h : SmallVecMap.run SmallVecMap.new ops = Except.ok m) (k : Nat) :
    m.get k = Except.ok (modelRun (fun _ => none) ops k)
    ∧ m.contains k =
        Except.ok ((modelRun (fun _ => none) ops k).isSome) := by
  obtain ⟨hw, hl⟩ := SmallVecMap.run_model ops SmallVecMap.wf_new
    (fun j => SmallVecMap.lookup_new j) h
  constructor
  · rw [SmallVecMap.get_eq_lookup hw, hl k]
  · rw [SmallVecMap.contains_eq, ← SmallVecMap.wf_lookup_isSome hw, hl k]

theorem claim_C1_witness :
    SmallVecMap.run (SmallVecMap.new : SmallVecMap Nat)
        [MapOp.ins 2 7, MapOp.del 2, MapOp.ins 3 5] =
      Except.ok ⟨[none, none, none, some 0], [(5, 3)]⟩
    ∧ (SmallVecMap.get
        (⟨[none, none, none, some 0], [(5, 3)]⟩ : SmallVecMap Nat) 3 =
          Except.ok (some 5)
      ∧ SmallVecMap.contains
          (⟨[none, none, none, some 0], [(5, 3)]⟩ : SmallVecMap Nat) 3 =
          Except.ok true) :=
  ⟨rfl, claim_C1 [MapOp.ins 2 7, MapOp.del 2, MapOp.ins 3 5] _ rfl 3⟩

/-- C2: inserting an absent key (beyond the indirection, or sentinel slot)
extends the indirection up to and including the key, appends `(v, k)`,
returns absent, and afterwards `get` finds the value and `len` grew by one;
inserting over a held value `v1` overwrites in place preserving the stored
original key, returns `some v1`, leaves `len` unchanged, and `get` then
yields the new value. -/
theorem claim_C2 {T : Type} (m : SmallVecMap T) (k : Nat) (v : T) :
    (SmallVecMap.slotOf m k = none →
      ∃ m' : SmallVecMap T,
        m.insert k v = Except.ok (m', none)
        ∧ m'.entries = m.entries ++ [(v, k)]
        ∧ m'.indexs.length = max m.indexs.length (k + 1)
        ∧ (∀ j, j ≠ k → SmallVecMap.slotOf m' j = SmallVecMap.slotOf m j)
        ∧ SmallVecMap.slotOf m' k = some m.entries.length
        ∧ m'.get k = Except.ok (some v)
        ∧ m'.len = m.len + 1)
    ∧ ∀ v1, m.get k = Except.ok (some v1) →
        ∃ i e, SmallVecMap.slotOf m k = some i
          ∧ m.entries[i]? = some e ∧ e.1 = v1
          ∧ m.insert k v =
              Except.ok (⟨m.indexs, m.entries.set i (v, e.2)⟩, some v1)
          ∧ SmallVecMap.get ⟨m.indexs, m.entries.set i (v, e.2)⟩ k =
              Except.ok (some v)
          ∧ SmallVecMap.len
              (⟨m.indexs, m.entries.set i (v, e.2)⟩ : SmallVecMap T) =
              m.len := by
  constructor
  · intro h
    obtain ⟨m', heq, hent, hlen, hslot⟩ := SmallVecMap.insert_of_slot_none v h
    have hklt : k < m'.indexs.length := by
      rw [hlen]
      have := Nat.le_max_right m.indexs.length (k + 1)
      omega
    have hsk : SmallVecMap.slotOf m' k = some m.entries.length := by
      rw [hslot k, if_pos rfl]
    refine ⟨m', heq, hent, hlen, fun j hj => by rw [hslot j, if_neg hj],
      hsk, ?_, ?_⟩
    · exact SmallVecMap.get_of_slot_entry hsk
        (by rw [hent, List.getElem?_concat_length])
    · show m'.entries.length = m.entries.length + 1
      rw [hent]
      simp
  · intro v1 hget
    unfold SmallVecMap.get at hget
    by_cases hk : k ≥ m.indexs.length
    · rw [if_pos hk] at hget
      injection hget with h1
      cases h1
    · rw [if_neg hk,
        SmallVecMap.indexs_getElem?_of_lt (Nat.lt_of_not_le hk)] at hget
      cases hs : SmallVecMap.slotOf m k with
      | none =>
        rw [hs] at hget
        simp only [] at hget
        injection hget with h1
        cases h1
      | some i =>
        rw [hs] at hget
        simp only [] at hget
        cases he : m.entries[i]? with
        | none =>
          rw [he] at hget
          exact Except.noConfusion hget
        | some e =>
          rw [he] at hget
          injection hget with h1
          injection h1 with h2
          have hi : i < m.entries.length := SmallVecMap.lt_of_getElem?_some he
          refine ⟨i, e, rfl, he, h2, ?_, ?_, ?_⟩
          · rw [← h2]
            exact SmallVecMap.insert_eq_of_some v hs he
          · exact @SmallVecMap.get_of_slot_entry T
              ⟨m.indexs, m.entries.set i (v, e.2)⟩ k i (v, e.2) hs
              (List.getElem?_set_self hi)
          · show (m.entries.set i (v, e.2)).length = m.entries.length
            simp

theorem claim_C2_witness :
    (∃ m' : SmallVecMap Nat,
      SmallVecMap.insert (⟨[some 0], [((5 : Nat), 0)]⟩ : SmallVecMap Nat) 3 9 =
        Except.ok (m', none) ∧ m'.entries = [((5 : Nat), 0), (9, 3)])
    ∧ ∃ i e,
        SmallVecMap.slotOf
            (⟨[some 0], [((5 : Nat), 0)]⟩ : SmallVecMap Nat) 0 = some i
        ∧ (⟨[some 0], [((5 : Nat), 0)]⟩ : SmallVecMap Nat).entries[i]? = some e
        ∧ SmallVecMap.insert
            (⟨[some 0], [((5 : Nat), 0)]⟩ : SmallVecMap Nat) 0 9 =
            Except.ok (⟨[some 0], [((5 : Nat), 0)].set i (9, e.2)⟩, some 5) := by
  constructor
  · obtain ⟨m', h1, h2, -, -, -, -, -⟩ :=
      (claim_C2 (⟨[some 0], [((5 : Nat), 0)]⟩ : SmallVecMap Nat) 3 9).1 rfl
    exact ⟨m', h1, h2.trans rfl⟩
  · obtain ⟨i, e, h1, h2, -, h4, -, -⟩ :=
      (claim_C2 (⟨[some 0], [((5 : Nat), 0)]⟩ : SmallVecMap Nat) 0 9).2 5 rfl
    exact ⟨i, e, h1, h2, h4⟩

/-- C3: on a well-formed state, removing a present key whose dense position
is not last swaps the last entry into the vacated position, sets the key's
slot to the sentinel, repairs exactly the moved entry's slot, returns the
removed value, and leaves every other key's `get` unchanged; removing a
last-position entry pops it directly with no repair. -/
theorem claim_C3 {T : Type} (m : SmallVecMap T) (k i : Nat)
    (hw : SmallVecMap.WF m) (hs : SmallVecMap.slotOf m k = some i) :
    (i + 1 ≠ m.entries.length →
      ∃ e l, m.entries[i]? = some e ∧ m.entries.getLast? = some l
        ∧ SmallVecMap.lookup m k = some e.1
        ∧ m.remove k = Except.ok
            (⟨(m.indexs.set k none).set l.2 (some i),
              (m.entries.set i l).dropLast⟩, some e.1)
        ∧ (∀ j, j ≠ k →
            SmallVecMap.get ⟨(m.indexs.set k none).set l.2 (some i),
              (m.entries.set i l).dropLast⟩ j = m.get j)
        ∧ SmallVecMap.slotOf ⟨(m.indexs.set k none).set l.2 (some i),
              (m.entries.set i l).dropLast⟩ k = none
        ∧ SmallVecMap.slotOf ⟨(m.indexs.set k none).set l.2 (some i),
              (m.entries.set i l).dropLast⟩ l.2 = some i
        ∧ ∀ j, j ≠ k → j ≠ l.2 →
            SmallVecMap.slotOf ⟨(m.indexs.set k none).set l.2 (some i),
              (m.entries.set i l).dropLast⟩ j = SmallVecMap.slotOf m j)
    ∧ (i + 1 = m.entries.length →
      ∃ l, m.entries.getLast? = some l ∧
        m.remove k = Except.ok
          (⟨m.indexs.set k none, m.entries.dropLast⟩, some l.1)) := by
  obtain ⟨e, he, hek, hi, hlk⟩ := SmallVecMap.wf_slot_entry hw hs
  have hkl := SmallVecMap.lt_of_slotOf_some hs
  constructor
  · intro hne
    obtain ⟨e2, l, he2, hgl, himp⟩ := SmallVecMap.remove_eq_of_swap hs hne hi
    have he2e : e2 = e := by
      rw [he] at he2
      exact (Option.some_inj.mp he2).symm
    have hlL : m.entries[m.entries.length - 1]? = some l := by
      rw [← List.getLast?_eq_getElem?]
      exact hgl
    have hκ : SmallVecMap.slotOf m l.2 = some (m.entries.length - 1) :=
      (SmallVecMap.wf_def m).mp hw |>.1 (m.entries.length - 1) l hlL
    have hκlt : l.2 < m.indexs.length := SmallVecMap.lt_of_slotOf_some hκ
    have hκk : l.2 ≠ k := by
      intro hh
      rw [hh, hs] at hκ
      have := Option.some_inj.mp hκ
      omega
    have heq := himp hκlt
    rw [he2e] at heq
    have hslot' : ∀ j,
        SmallVecMap.slotOf (⟨(m.indexs.set k none).set l.2 (some i),
            (m.entries.set i l).dropLast⟩ : SmallVecMap T) j =
          if j = l.2 then some i
          else if j = k then none else SmallVecMap.slotOf m j := by
      intro j
      by_cases hjκ : j = l.2
      · subst hjκ
        rw [if_pos rfl]
        simp only [SmallVecMap.slotOf]
        rw [List.getElem?_set_self (by rw [List.length_set]; exact hκlt)]
        rfl
      · rw [if_neg hjκ]
        simp only [SmallVecMap.slotOf]
        rw [List.getElem?_set_ne (fun hh => hjκ hh.symm)]
        by_cases hj : j = k
        · subst hj
          rw [if_pos rfl, List.getElem?_set_self hkl]
          rfl
        · rw [if_neg hj, List.getElem?_set_ne (fun hh => hj hh.symm)]
    obtain ⟨m2, heq2, hw2, hlook2, -, -⟩ := SmallVecMap.remove_spec hw k
    rw [heq] at heq2
    injection heq2 with hpair
    injection hpair with hA hB
    refine ⟨e, l, he, hgl, hlk, heq, ?_, ?_, ?_, ?_⟩
    · intro j hj
      rw [hA, SmallVecMap.get_eq_lookup hw2, SmallVecMap.get_eq_lookup hw,
        hlook2 j, if_neg hj]
    · rw [hslot' k, if_neg (fun hh => hκk hh.symm), if_pos rfl]
    · rw [hslot' l.2, if_pos rfl]
    · intro j hjk hjκ
      rw [hslot' j, if_neg hjκ, if_neg hjk]
  · intro hlast
    obtain ⟨l, hgl, heq⟩ := SmallVecMap.remove_eq_of_last hs hlast
    exact ⟨l, hgl, heq⟩

theorem claim_C3_witness :
    SmallVecMap.remove (⟨[some 0, some 1, some 2],
        [((5 : Nat), 0), (6, 1), (7, 2)]⟩ : SmallVecMap Nat) 0 =
      Except.ok (⟨[none, some 1, some 0], [(7, 2), (6, 1)]⟩, some 5) := by
  obtain ⟨e, l, he, hl, -, heq, -, -, -, -⟩ :=
    (claim_C3 (⟨[some 0, some 1, some 2],
      [((5 : Nat), 0), (6, 1), (7, 2)]⟩ : SmallVecMap Nat) 0 0
      (by decide) rfl).1 (by decide)
  have he' : e = ((5 : Nat), 0) := Option.some_inj.mp (he.symm.trans rfl)
  have hl' : l = ((7 : Nat), 2) := Option.some_inj.mp (hl.symm.trans rfl)
  subst he'
  subst hl'
  exact heq

/-- C4: in every reachable state the two structural predicates hold — each
dense entry's original key maps back to its position, and each non-sentinel
slot is a valid dense position — and every successful public operation
preserves them. -/
theorem claim_C4 {T : Type} (m : SmallVecMap T)
    (h : SmallVecMap.Reachable m) :
    ((∀ p e, m.entries[p]? = some e → SmallVecMap.slotOf m e.2 = some p)
      ∧ ∀ k i, k < m.indexs.length → SmallVecMap.slotOf m k = some i →
          i < m.entries.length)
    ∧ ∀ op p, m.applyOp op = Except.ok p →
        ((∀ q e, p.1.entries[q]? = some e →
            SmallVecMap.slotOf p.1 e.2 = some q)
          ∧ ∀ k i, k < p.1.indexs.length →
              SmallVecMap.slotOf p.1 k = some i →
                i < p.1.entries.length) := by
  have both : ∀ x : SmallVecMap T, SmallVecMap.WF x →
      ((∀ p e, x.entries[p]? = some e → SmallVecMap.slotOf x e.2 = some p)
        ∧ ∀ k i, k < x.indexs.length → SmallVecMap.slotOf x k = some i →
            i < x.entries.length) := by
    intro x hw
    refine ⟨(SmallVecMap.wf_def x).mp hw |>.1, fun k i _ hsk => ?_⟩
    obtain ⟨e, -, -, hi, -⟩ := SmallVecMap.wf_slot_entry hw hsk
    exact hi
  exact ⟨both m (SmallVecMap.wf_reachable h),
    fun op p happ =>
      both p.1 (SmallVecMap.wf_applyOp (SmallVecMap.wf_reachable h) happ)⟩

theorem claim_C4_witness :
    (0 : Nat) <
      (⟨[some 0], [((7 : Nat), 0)]⟩ : SmallVecMap Nat).entries.length := by
  have hr : SmallVecMap.Reachable
      (⟨[some 0], [((7 : Nat), 0)]⟩ : SmallVecMap Nat) :=
    SmallVecMap.Reachable.step SmallVecMap.new (MapOp.ins 0 7)
      ((⟨[some 0], [((7 : Nat), 0)]⟩ : SmallVecMap Nat), none)
      SmallVecMap.Reachable.base rfl
  exact (claim_C4 _ hr).1.2 0 0 (by decide) rfl

/-- C5: on every reachable state the checked operations `get`, `get_mut`,
`contains`, `insert` and `remove` never fault: each returns an `ok` result
for every key. -/
theorem claim_C5 {T : Type} (m : SmallVecMap T)
    (h : SmallVecMap.Reachable m) (k : Nat) (v : T) :
    (∃ r, m.get k = Except.ok r)
    ∧ (∃ r, m.get_mut k = Except.ok r)
    ∧ (∃ b, m.contains k = Except.ok b)
    ∧ (∃ p, m.insert k v = Except.ok p)
    ∧ (∃ p, m.remove k = Except.ok p) := by
  have hw := SmallVecMap.wf_reachable h
  refine ⟨⟨_, SmallVecMap.get_eq_lookup hw k⟩,
    ⟨_, (SmallVecMap.get_mut_eq_get m k).trans
      (SmallVecMap.get_eq_lookup hw k)⟩,
    ⟨_, SmallVecMap.contains_eq m k⟩, ?_, ?_⟩
  · obtain ⟨m', heq, -⟩ := SmallVecMap.insert_spec hw k v
    exact ⟨_, heq⟩
  · obtain ⟨m', heq, -⟩ := SmallVecMap.remove_spec hw k
    exact ⟨_, heq⟩

theorem claim_C5_witness :
    (∃ r, (SmallVecMap.new : SmallVecMap Nat).get 0 = Except.ok r)
    ∧ (∃ r, (SmallVecMap.new : SmallVecMap Nat).get_mut 0 = Except.ok r)
    ∧ (∃ b, (SmallVecMap.new : SmallVecMap Nat).contains 0 = Except.ok b)
    ∧ (∃ p, (SmallVecMap.new : SmallVecMap Nat).insert 0 0 = Except.ok p)
    ∧ (∃ p, (SmallVecMap.new : SmallVecMap Nat).remove 0 = Except.ok p) :=
  claim_C5 _ SmallVecMap.Reachable.base 0 0

/-- C6: removing an absent key (out of range, or sentinel slot) returns
absent and leaves the container literally unchanged, so its length and
every other read are stable. -/
theorem claim_C6 {T : Type} (m : SmallVecMap T) (k : Nat)
    (h : SmallVecMap.slotOf m k = none) :
    m.remove k = Except.ok (m, none)
    ∧ (m.remove k).map (fun p => p.1.len) = Except.ok m.len
    ∧ ∀ j, (m.remove k).map (fun p => p.1.get j) = Except.ok (m.get j) := by
  have heq := SmallVecMap.remove_eq_of_none h
  exact ⟨heq, by rw [heq]; rfl, fun j => by rw [heq]; rfl⟩

theorem claim_C6_witness :
    SmallVecMap.remove (⟨[some 0], [((5 : Nat), 0)]⟩ : SmallVecMap Nat) 7 =
      Except.ok (⟨[some 0], [((5 : Nat), 0)]⟩, none) :=
  (claim_C6 (⟨[some 0], [((5 : Nat), 0)]⟩ : SmallVecMap Nat) 7 rfl).1

/-- C7: the indirection length never decreases except via `clear`: `remove`
preserves it exactly, `insert` only grows it and covers the inserted key,
every non-clear operation is monotone, and over any clear-free run from
empty the length exceeds every key ever inserted. -/
theorem claim_C7 {T : Type} :
    (∀ (m : SmallVecMap T) (k : Nat) (p : SmallVecMap T × Option T),
      m.remove k = Except.ok p → p.1.indexs.length = m.indexs.length)
    ∧ (∀ (m : SmallVecMap T) (k : Nat) (v : T)
        (p : SmallVecMap T × Option T),
      m.insert k v = Except.ok p →
        m.indexs.length ≤ p.1.indexs.length ∧ k < p.1.indexs.length)
    ∧ (∀ (m : SmallVecMap T) (op : MapOp T) (p : SmallVecMap T × Option T),
      m.applyOp op = Except.ok p →
        op = MapOp.clr ∨ m.indexs.length ≤ p.1.indexs.length)
    ∧ ∀ ops : List (MapOp T), MapOp.clr ∉ ops →
        ∀ m' : SmallVecMap T,
          SmallVecMap.run SmallVecMap.new ops = Except.ok m' →
          ∀ k v, MapOp.ins k v ∈ ops → k < m'.indexs.length :=
  ⟨fun _ _ _ h => SmallVecMap.remove_indexs_length h,
   fun _ _ _ _ h => SmallVecMap.insert_indexs_length h,
   fun _ _ _ h => SmallVecMap.applyOp_indexs_mono h,
   fun _ hclr _ h k v hmem => SmallVecMap.run_ins_key_lt hclr h k v hmem⟩

theorem claim_C7_witness :
    (⟨[some 0], [((5 : Nat), 0)]⟩ : SmallVecMap Nat).indexs.length ≤
      (⟨[some 0, none, none, some 1],
        [((5 : Nat), 0), (9, 3)]⟩ : SmallVecMap Nat).indexs.length
    ∧ 3 < (⟨[some 0, none, none, some 1],
        [((5 : Nat), 0), (9, 3)]⟩ : SmallVecMap Nat).indexs.length :=
  (@claim_C7 Nat).2.1 ⟨[some 0], [((5 : Nat), 0)]⟩ 3 9
    (⟨[some 0, none, none, some 1], [((5 : Nat), 0), (9, 3)]⟩, none) rfl

/-- C8: the two storage strategies are observationally equivalent: running
any operation sequence from empty, the release strategy never faults, both
produce the same insert and remove return values, and the final states
agree on `get`, `contains` and `len` at every key. -/
theorem claim_C8 {T : Type} (ops : List (MapOp T)) :
    ∃ m : SmallVecMap T,
      SmallVecMap.runOut SmallVecMap.new ops =
        Except.ok (m, (SmallVecMapDbg.runOut SmallVecMapDbg.new ops).2)
      ∧ ∀ k, m.get k =
            Except.ok
              ((SmallVecMapDbg.runOut SmallVecMapDbg.new ops).1.get k)
        ∧ m.contains k =
            Except.ok
              (SmallVecMapDbg.contains
                (SmallVecMapDbg.runOut SmallVecMapDbg.new ops).1 k)
        ∧ m.len = (SmallVecMapDbg.runOut SmallVecMapDbg.new ops).1.len := by
  obtain ⟨q, hrun, hq2, hw, hlen, hget⟩ :=
    sim_runOut ops SmallVecMap.new SmallVecMapDbg.new sim_new
  refine ⟨q.1, ?_, ?_⟩
  · rw [← hq2]
    exact hrun
  · intro k
    refine ⟨?_, ?_, ?_⟩
    · rw [SmallVecMap.get_eq_lookup hw, hget k]
    · rw [SmallVecMap.contains_eq, SmallVecMapDbg.dbg_contains_eq, ← hget k,
        SmallVecMap.wf_lookup_isSome hw]
    · exact hlen

/-- C9: constructing the container from a dense 0-based list of
`(value, key)` pairs yields length equal to the list length, and `get`
at each position returns that position's value (identity indirection). -/
theorem claim_C9 {T : Type} (l : List (T × Nat)) (hd : SmallVecMap.Dense l) :
    (SmallVecMap.fromVec l).len = l.length
    ∧ ∀ p, (hp : p < l.length) →
        (SmallVecMap.fromVec l).get p =
          Except.ok (some (l.get ⟨p, hp⟩).1) := by
  refine ⟨rfl, fun p hp => ?_⟩
  rw [SmallVecMap.get_eq_lookup (SmallVecMap.wf_fromVec hd),
    SmallVecMap.lookup_of_slot_some
      (by rw [SmallVecMap.slotOf_fromVec]; exact if_pos hp)]
  have hent : (SmallVecMap.fromVec l).entries = l := rfl
  rw [hent, List.getElem?_eq_getElem hp]
  simp [List.get_eq_getElem]

theorem claim_C9_witness :
    (SmallVecMap.fromVec [((10 : Nat), 0), (11, 1)]).len = 2
    ∧ (SmallVecMap.fromVec [((10 : Nat), 0), (11, 1)]).get 1 =
        Except.ok (some 11) := by
  have h := claim_C9 [((10 : Nat), 0), (11, 1)] (by decide)
  exact ⟨h.1, h.2 1 (by decide)⟩

/-- C10: on every reachable state, `contains` agrees with `get` being
`some`: the presence test is exactly the definedness of the read. -/
theorem claim_C10 {T : Type} (m : SmallVecMap T)
    (h : SmallVecMap.Reachable m) (k : Nat) :
    m.contains k = (m.get k).map Option.isSome := by
  have hw := SmallVecMap.wf_reachable h
  rw [SmallVecMap.contains_eq, SmallVecMap.get_eq_lookup hw]
  show Except.ok (SmallVecMap.slotOf m k).isSome =
    Except.ok (SmallVecMap.lookup m k).isSome
  rw [SmallVecMap.wf_lookup_isSome hw]

theorem claim_C10_witness :
    SmallVecMap.contains (SmallVecMap.new : SmallVecMap Nat) 4 =
      (SmallVecMap.get (SmallVecMap.new : SmallVecMap Nat) 4).map
        Option.isSome :=
  claim_C10 _ SmallVecMap.Reachable.base 4
